import Mathlib

/-!
Shallow embedding of the Matrix_2 numeric library (complex numbers,
generic matrices/vectors, polynomial engine with Durand-Kerner
root-finding), translated from the C++ sources:
  src/inc/Complex.h, src/src/Complex.cpp   (free-function complex variant)
  src/src/Complex_C.cpp                    (member-function complex variant)
  src/inc/Matrix.h, src/inc/Vector.h
  src/inc/Poly.h, src/src/Poly.cpp

C++ `double` values are modelled as real numbers; exceptional control
flow (`throw`) is modelled with `Option`/`Except`.  The literal `NAN`
returned by `Complex_C_t::argument` on the zero input is modelled as
`Option.none`.
-/

open Real

/-- Cartesian complex number, from `Complex_C_t` (fields `m_real`,
`m_imagine`); `double` modelled as `ℝ`. -/
@[ext]
structure Cplx where
  m_real : ℝ
  m_imagine : ℝ

namespace Cplx

/-- Implicit conversion of a `double` to `Complex_C_t` (real part only,
imaginary part defaulted to zero), as used by `Complex_C_t product = 1;`. -/
def ofReal (x : ℝ) : Cplx := ⟨x, 0⟩

instance : Zero Cplx := ⟨⟨0, 0⟩⟩
instance : One Cplx := ⟨⟨1, 0⟩⟩

/-- Source: `operator+(Complex_C_t, Complex_C_t)` from Complex_C.cpp. -/
instance : Add Cplx := ⟨fun l r => ⟨l.m_real + r.m_real, l.m_imagine + r.m_imagine⟩⟩

/-- Source: `operator-(Complex_C_t, Complex_C_t)` from Complex_C.cpp. -/
instance : Sub Cplx := ⟨fun l r => ⟨l.m_real - r.m_real, l.m_imagine - r.m_imagine⟩⟩

/-- Unary `operator-(Complex_C_t)` from Complex_C.cpp. -/
instance : Neg Cplx := ⟨fun c => ⟨-c.m_real, -c.m_imagine⟩⟩

/-- Source: `operator*(Complex_C_t, Complex_C_t)` from Complex_C.cpp. -/
instance : Mul Cplx :=
  ⟨fun l r => ⟨l.m_real * r.m_real - l.m_imagine * r.m_imagine,
               l.m_real * r.m_imagine + l.m_imagine * r.m_real⟩⟩

/-- Source: `operator*(Complex_C_t, double)` from Complex_C.cpp. -/
def mulReal (l : Cplx) (r : ℝ) : Cplx := ⟨l.m_real * r, l.m_imagine * r⟩

/-- Source: `operator/(Complex_C_t, Complex_C_t)` from Complex_C.cpp:
multiply by the conjugate and divide by the squared norm. -/
noncomputable instance : Div Cplx :=
  ⟨fun l r =>
    let div := r.m_real ^ 2 + r.m_imagine ^ 2
    ⟨(l.m_real * r.m_real + l.m_imagine * r.m_imagine) / div,
     (l.m_imagine * r.m_real - l.m_real * r.m_imagine) / div⟩⟩

@[simp] theorem zero_def : (0 : Cplx) = ⟨0, 0⟩ := rfl
@[simp] theorem one_def : (1 : Cplx) = ⟨1, 0⟩ := rfl
@[simp] theorem add_def (a b : Cplx) :
    a + b = ⟨a.m_real + b.m_real, a.m_imagine + b.m_imagine⟩ := rfl
@[simp] theorem sub_def (a b : Cplx) :
    a - b = ⟨a.m_real - b.m_real, a.m_imagine - b.m_imagine⟩ := rfl
@[simp] theorem neg_def (a : Cplx) : -a = ⟨-a.m_real, -a.m_imagine⟩ := rfl
@[simp] theorem mul_def (a b : Cplx) :
    a * b = ⟨a.m_real * b.m_real - a.m_imagine * b.m_imagine,
             a.m_real * b.m_imagine + a.m_imagine * b.m_real⟩ := rfl

/-- The source's cartesian operations satisfy the commutative-ring laws
(used to reason about products/sums of factors). -/
instance : CommRing Cplx where
  add_assoc a b c := by simp [Cplx.ext_iff]; constructor <;> ring
  zero_add a := by simp [Cplx.ext_iff]
  add_zero a := by simp [Cplx.ext_iff]
  add_comm a b := by simp [Cplx.ext_iff]; constructor <;> ring
  mul_assoc a b c := by simp [Cplx.ext_iff]; constructor <;> ring
  one_mul a := by simp [Cplx.ext_iff]
  mul_one a := by simp [Cplx.ext_iff]
  left_distrib a b c := by simp [Cplx.ext_iff]; constructor <;> ring
  right_distrib a b c := by simp [Cplx.ext_iff]; constructor <;> ring
  mul_comm a b := by simp [Cplx.ext_iff]; constructor <;> ring
  neg_add_cancel a := by simp [Cplx.ext_iff]
  sub_eq_add_neg a b := by simp [Cplx.ext_iff]; constructor <;> ring
  zero_mul a := by simp [Cplx.ext_iff]
  mul_zero a := by simp [Cplx.ext_iff]
  nsmul := nsmulRec
  zsmul := zsmulRec

/-- Source: `Complex_C_t::absolute()`: `sqrt(pow(m_real,2) + pow(m_imagine,2))`. -/
noncomputable def absolute (c : Cplx) : ℝ :=
  Real.sqrt (c.m_real ^ 2 + c.m_imagine ^ 2)

/-- Source: `Complex_C_t::argument()` from Complex_C.cpp.  The final `else`
branch (reached exactly at `0 + 0i`) executes `return NAN;`, modelled
here as `none`. -/
noncomputable def argumentM (c : Cplx) : Option ℝ :=
  if c.m_real > 0 then some (Real.arctan (c.m_imagine / c.m_real))
  else if c.m_real < 0 ∧ c.m_imagine ≥ 0 then
    some (Real.arctan (c.m_imagine / c.m_real) + π)
  else if c.m_real < 0 ∧ c.m_imagine < 0 then
    some (Real.arctan (c.m_imagine / c.m_real) - π)
  else if c.m_real = 0 ∧ c.m_imagine > 0 then some (π / 2)
  else if c.m_real = 0 ∧ c.m_imagine < 0 then some (-(π / 2))
  else none

end Cplx

/-- Free-function `argument` from Complex.cpp (the `Complex.h` variant,
fields `real`/`imagine` mapped onto `Cplx`).  It returns `0` for the
zero input before any quadrant analysis.  In the remaining branches the
C++ adds a `preRotation` that is only assigned in four quadrant cases
(it is left uninitialized when exactly one component is zero); those
cases are modelled with an unconstrained junk value of `0`. -/
noncomputable def argumentFree (c : Cplx) : ℝ :=
  if c.m_real = 0 ∧ c.m_imagine = 0 then 0
  else
    let preRotation : ℝ :=
      if c.m_real > 0 ∧ c.m_imagine > 0 then 0
      else if c.m_real < 0 ∧ c.m_imagine > 0 then π / 2
      else if c.m_real < 0 ∧ c.m_imagine < 0 then -(π / 2)
      else if c.m_real > 0 ∧ c.m_imagine < 0 then 0
      else 0
    Real.arctan (c.m_imagine / c.m_real) + preRotation

/-- Source: `powReal(Complex_C_t, double)` from Complex_C.cpp:
`pow(|base|, raise)` at angle `argument(base) * raise`.  The C++
`base.argument()` yields `NAN` for `base = 0` (the result would then be
`NaN`); that degenerate angle is idealized here as `0`. -/
noncomputable def powRealC (base : Cplx) (raise : ℝ) : Cplx :=
  let abs_powered := base.absolute ^ raise
  let ang_mulled := (base.argumentM.getD 0) * raise
  ⟨abs_powered * Real.cos ang_mulled, abs_powered * Real.sin ang_mulled⟩

/-- Modelled from the spec: `polarToCart` is declared in the header
`Complex_C.h`, which is absent from the sources; §4.1 specifies the
conversion as `polar(r,θ) → rect(r·cosθ, r·sinθ)`. -/
noncomputable def polarToCart (p : ℝ × ℝ) : Cplx :=
  ⟨p.1 * Real.cos p.2, p.1 * Real.sin p.2⟩

/-- Source: `Vector<T>::crossR3` from Vector.h (lines 181-194), including the
source's index usage in every component; vectors are modelled as lists
and the length-3 guard (`throw` otherwise) as `Option`. -/
def crossR3 {α : Type} [Mul α] [Sub α] : List α → List α → Option (List α)
  | [a0, a1, a2], [b0, b1, b2] =>
      some [a1 * b2 - a2 * b1, a2 * b0 - a0 * b2, a0 * b1 - a1 * b1]
  | _, _ => none

/-- The mathematically standard 3-D cross product the claim states
(`a1 b2 − a2 b1`, `a2 b0 − a0 b2`, `a0 b1 − a1 b0`). -/
def crossR3Std {α : Type} [Mul α] [Sub α] [Zero α] (a b : List α) : List α :=
  [a.getD 1 0 * b.getD 2 0 - a.getD 2 0 * b.getD 1 0,
   a.getD 2 0 * b.getD 0 0 - a.getD 0 0 * b.getD 2 0,
   a.getD 0 0 * b.getD 1 0 - a.getD 1 0 * b.getD 0 0]

/-- Source: `Matrix<T>` from Matrix.h: a `rows × cols` grid; the flat `m_data`
array is modelled as a total index function (entries outside
`[0,rows) × [0,cols)` are irrelevant junk). -/
structure Mat (α : Type) where
  rows : ℕ
  cols : ℕ
  data : ℕ → ℕ → α

namespace Mat

variable {α : Type}

/-- Builds a `Mat` from a rectangular list-of-rows literal, mirroring the
initializer-list constructor's row-major population. -/
def ofLists [Zero α] (l : List (List α)) : Mat α :=
  ⟨l.length, (l.headD []).length, fun i j => (l.getD i []).getD j 0⟩

/-- Source: `Matrix<T>::operator==` (Matrix.h lines 260-278): identical
dimensions and element-wise equality of the stored entries. -/
def matEq (m1 m2 : Mat α) : Prop :=
  m1.rows = m2.rows ∧ m1.cols = m2.cols ∧
    ∀ i < m1.rows, ∀ j < m1.cols, m1.data i j = m2.data i j

/-- Source: `Matrix<T>::createSubMatrix` (Matrix.h lines 488-517).  The result
matrix `Matrix(m_rows-1, m_cols-1)` is constructed first and its
constructor throws when either dimension is zero (`rows ≤ 1` or
`cols ≤ 1`); when `row`/`col` are out of range, the skip-and-shift walk
writes past the result's bounds and `_trans_coord` throws.  Otherwise
entry `(i, j)` of the result is the source entry with the deleted row
and column skipped over. -/
def createSubMatrix (m : Mat α) (row col : ℕ) : Option (Mat α) :=
  if m.rows ≤ 1 ∨ m.cols ≤ 1 then none
  else if m.rows ≤ row ∨ m.cols ≤ col then none
  else some ⟨m.rows - 1, m.cols - 1,
    fun i j => m.data (if i < row then i else i + 1) (if j < col then j else j + 1)⟩

variable [DecidableEq α]

/-- The per-row zero count inside `Matrix<T>::_find_zeros_row`
(comparison `get(i,j) == (T) 0`). -/
def countZeros [Zero α] (m : Mat α) (i : ℕ) : ℕ :=
  (List.range m.cols).foldl (fun c j => if m.data i j = 0 then c + 1 else c) 0

/-- Source: `Matrix<T>::_find_zeros_row` (Matrix.h lines 731-755): the first row
holding the strictly greatest number of zero entries; row 0 when no row
contains a zero. -/
def find_zeros_row [Zero α] (m : Mat α) : ℕ :=
  ((List.range m.rows).foldl
    (fun best i =>
      let zc := countZeros m i
      if best.1 < zc then (zc, i) else best)
    ((0 : ℕ), (0 : ℕ))).2

variable [Field α]

/-- Fuel-indexed body of `Matrix<T>::determinant` (Matrix.h lines
547-576) together with the `minor`/`cofactor` helpers it recurses
through (lines 526-541): non-square matrices throw; `2×2` and `1×1` are
closed-form base cases; otherwise the pivot row is `_find_zeros_row()`
and the zero entries of that row are skipped in the cofactor sum.
`cofactor(i,j) = minor(i,j) * pow(-1, i+j)` and
`minor(i,j) = createSubMatrix(i,j).determinant()`.  The fuel only bounds
the recursion depth; `determinant` supplies `rows` of it, which the
recursion (each step shrinking the matrix by one row) never exhausts. -/
def detFuel : ℕ → Mat α → Option α
  | 0, _ => none
  | fuel + 1, m =>
    if m.rows ≠ m.cols then none
    else if m.cols = 2 then
      some (m.data 0 0 * m.data 1 1 - m.data 1 0 * m.data 0 1)
    else if m.cols = 1 then some (m.data 0 0)
    else
      let wr := find_zeros_row m
      (List.range m.cols).foldl
        (fun acc j =>
          acc.bind fun det =>
            if m.data wr j ≠ 0 then
              ((createSubMatrix m wr j).bind (detFuel fuel)).map
                (fun mn => det + m.data wr j * (mn * (-1 : α) ^ (wr + j)))
            else some det)
        (some 0)

/-- Source: `Matrix<T>::determinant()`. -/
def determinant (m : Mat α) : Option α := detFuel m.rows m

/-- Source: `Matrix<T>::minor` (Matrix.h lines 526-529). -/
def minor (m : Mat α) (i j : ℕ) : Option α :=
  (createSubMatrix m i j).bind determinant

/-- Source: `Matrix<T>::cofactor` (Matrix.h lines 538-541):
`minor(i,j) * pow(-1, i+j)`. -/
def cofactor (m : Mat α) (i j : ℕ) : Option α :=
  (minor m i j).map (fun mn => mn * (-1 : α) ^ (i + j))

/-- Source: `Matrix<T>::adjoint()` (Matrix.h lines 582-595): the matrix of
cofactors, transposed.  Any throwing cofactor aborts the whole
computation. -/
def adjoint (m : Mat α) : Option (Mat α) :=
  if ∀ i < m.rows, ∀ j < m.cols, (cofactor m i j).isSome then
    some ⟨m.cols, m.rows, fun i j => (cofactor m j i).getD 0⟩
  else none

/-- Source: `Matrix<T>::operator/(T)` (Matrix.h lines 210-220): element-wise
division by a scalar. -/
def divScalar (m : Mat α) (d : α) : Mat α :=
  ⟨m.rows, m.cols, fun i j => m.data i j / d⟩

/-- Source: `Matrix<T>::inverse()` (Matrix.h lines 601-610): computes the
determinant, throws on zero, otherwise `adjoint() / det`. -/
def inverse (m : Mat α) : Option (Mat α) :=
  (determinant m).bind fun det =>
    if det = 0 then none
    else (adjoint m).map (fun a => divScalar a det)

/-- Source: `Matrix<T>::operator%` (Matrix.h lines 228-252): the true matrix
product, requiring `(m,p) % (p,n)`; entry `(i,j)` accumulates
`sum += get(i,idx) * mat.get(idx,j)` from `sum = 0`. -/
def matMul (m1 m2 : Mat α) : Option (Mat α) :=
  if m1.cols ≠ m2.rows then none
  else some ⟨m1.rows, m2.cols,
    fun i j => (List.range m1.cols).foldl (fun sum idx => sum + m1.data i idx * m2.data idx j) 0⟩

/-- Source: `Matrix<T>::identity` (Matrix.h lines 674-693). -/
def identity (len : ℕ) : Mat α :=
  ⟨len, len, fun i j => if i = j then 1 else 0⟩

end Mat

noncomputable instance : DecidableEq Cplx := Classical.decEq _

/-- Source: `SMALLEST_ALLOWED_START_VAL` (Poly.h line 22): `1.0E-12`. -/
noncomputable def SMALLEST_ALLOWED_START_VAL : ℝ := 1e-12

/-- Source: `MAX_DK_ITERATIONS` (Poly.h line 25): `1048576`, i.e. `2^20`. -/
def MAX_DK_ITERATIONS : ℕ := 1048576

/-- Source: `MIN_DIFF_CONV_TEST` (Poly.h line 28): `1.0E-9`. -/
noncomputable def MIN_DIFF_CONV_TEST : ℝ := 1e-9

/-- Error conditions raised by `FactorizePoly`: the explicit
`std::invalid_argument` for low rank, and the `std::out_of_range`
raised by `compressedPoly.at(maxRank)` when the index is past the end. -/
inductive PolyErr
  | invalidArgument
  | outOfRange
deriving DecidableEq

/-- Source: `getValCompressedPoly` (Poly.cpp lines 202-214): direct evaluation
`Σ coeffs[i]·x^i` via `powReal`, skipping coefficients equal to `0.0`. -/
noncomputable def getValCompressedPoly (x : Cplx) (compressedPoly : List Cplx) : Cplx :=
  (List.range compressedPoly.length).foldl
    (fun sum i =>
      if compressedPoly.getD i 0 ≠ Cplx.ofReal 0 then
        sum + compressedPoly.getD i 0 * powRealC x (i : ℝ)
      else sum)
    (Cplx.ofReal 0)

/-- Source: `maxRank = compressedPoly.size() - 1` computed in `size_t`
arithmetic (Poly.cpp line 219): subtraction wraps modulo `2^64`, so the
empty list yields `2^64 - 1` rather than a negative rank. -/
def dkMaxRank (coeffs : List Cplx) : ℕ :=
  (coeffs.length + (2 ^ 64 - 1)) % 2 ^ 64

/-- The `first_nonzero_coeff` scan of `FactorizePoly` (Poly.cpp lines
227-235); the variable keeps its default-initialized value `0` when
every coefficient is zero. -/
noncomputable def firstNonzeroCoeff (coeffs : List Cplx) : Cplx :=
  (coeffs.find? (fun c => c ≠ 0)).getD 0

/-- The initial-guess circle radius of `FactorizePoly` (Poly.cpp line
238): `pow(first_nonzero_coeff.absolute() / coeff[maxRank].absolute(),
1.0 / maxRank)`. -/
noncomputable def dkRadius (coeffs : List Cplx) : ℝ :=
  ((firstNonzeroCoeff coeffs).absolute / (coeffs.getD (dkMaxRank coeffs) 0).absolute)
    ^ (1 / (dkMaxRank coeffs : ℝ))

/-- The small-component snap applied to each initial guess (Poly.cpp
lines 250-258): components with magnitude below
`SMALLEST_ALLOWED_START_VAL` are replaced by exactly `0`. -/
noncomputable def snapSmall (c : Cplx) : Cplx :=
  ⟨if |c.m_real| < SMALLEST_ALLOWED_START_VAL then 0 else c.m_real,
   if |c.m_imagine| < SMALLEST_ALLOWED_START_VAL then 0 else c.m_imagine⟩

/-- The initial root guesses of `FactorizePoly` (Poly.cpp lines
244-259): `rank` points on the circle of radius `dkRadius` at angles
`i·(2π/rank) + π/(2·rank)`, converted by `polarToCart` and snapped. -/
noncomputable def initialGuesses (coeffs : List Cplx) : List Cplx :=
  let maxRank := dkMaxRank coeffs
  let base_angle := 2 * π / (maxRank : ℝ)
  let offset := π / (2 * (maxRank : ℝ))
  (List.range maxRank).map fun (i : ℕ) =>
    snapSmall (polarToCart (dkRadius coeffs, (i : ℝ) * base_angle + offset))

/-- One Durand-Kerner update (Poly.cpp lines 275-289): every estimate
`v_i` becomes `v_i - P(v_i) / Π_{j≠i} (v_i - v_j)`. -/
noncomputable def dkStep (coeffs cur : List Cplx) : List Cplx :=
  (List.range cur.length).map fun i =>
    let curVal := cur.getD i 0
    let sub_product := (List.range cur.length).foldl
      (fun p j => if j ≠ i then p * (curVal - cur.getD j 0) else p) (Cplx.ofReal 1)
    curVal - getValCompressedPoly curVal coeffs / sub_product

/-- The convergence scan of `FactorizePoly` (Poly.cpp lines 291-303):
every root's magnitude must have changed by less than
`MIN_DIFF_CONV_TEST`; the first offender breaks out with `false`. -/
noncomputable def convTest (cur next : List Cplx) : Bool :=
  (List.range cur.length).all fun i =>
    |(cur.getD i 0).absolute - (next.getD i 0).absolute| < MIN_DIFF_CONV_TEST

/-- The Durand-Kerner `while` loop of `FactorizePoly` (Poly.cpp lines
268-306), carrying `(currentValues, iter_count, all_converged)`.  Each
pass computes `nextValues`, re-evaluates `all_converged` (the inner
`for` leaves it untouched when the estimate list is empty), and shifts
`currentValues`. -/
noncomputable def dkLoop (coeffs : List Cplx) :
    List Cplx → ℕ → Bool → List Cplx × ℕ × Bool
  | cur, iter, allConv =>
    if h : iter < MAX_DK_ITERATIONS ∧ allConv = false then
      let next := dkStep coeffs cur
      let conv := if cur.length = 0 then allConv else convTest cur next
      dkLoop coeffs next (iter + 1) conv
    else (cur, iter, allConv)
termination_by cur iter allConv => MAX_DK_ITERATIONS - iter
decreasing_by simp_wf; omega

/-- Source: `FactorizePoly` (Poly.cpp lines 217-317): rank check, radius access
(`.at(maxRank)`, which throws `std::out_of_range` past the end),
initial guesses, Durand-Kerner iteration, and the final factor list
`(1, -nextValues[i])`. -/
noncomputable def FactorizePoly (coeffs : List Cplx) :
    Except PolyErr (List (ℝ × Cplx)) :=
  let maxRank := dkMaxRank coeffs
  if maxRank < 2 then .error .invalidArgument
  else if coeffs.length ≤ maxRank then .error .outOfRange
  else
    let r := dkLoop coeffs (initialGuesses coeffs) 0 false
    .ok (r.1.map fun v => ((1 : ℝ), -v))

/-- The circular interior-power walk of `CompressFactors` (Poly.cpp
lines 169-193): starting from factor `curFactor`'s linear coefficient,
walk the remaining factors circularly, consuming `curPower - 1`
linear-coefficient contributions before switching to root
contributions. -/
noncomputable def interiorProduct (factorList : List (ℝ × Cplx))
    (curFactor curPower : ℕ) : Cplx :=
  let n := factorList.length
  let idxs := (List.range (n - 1)).map fun k => (curFactor + 1 + k) % n
  (idxs.foldl
    (fun acc idx =>
      let f := factorList.getD idx ((0 : ℝ), (0 : Cplx))
      if 0 < acc.2 then (acc.1.mulReal f.1, acc.2 - 1) else (acc.1 * f.2, acc.2))
    (Cplx.ofReal ((factorList.getD curFactor ((0 : ℝ), (0 : Cplx))).1),
     curPower - 1)).1

/-- Source: `CompressFactors` (Poly.cpp lines 136-199): power 0 is the product
of the factors' root components, the top power the product of their
linear coefficients, and each interior power a sum of circular-walk
products. -/
noncomputable def CompressFactors (factorList : List (ℝ × Cplx)) : List Cplx :=
  (List.range (factorList.length + 1)).map fun curPower =>
    if curPower = 0 then
      factorList.foldl (fun p f => p * f.2) (Cplx.ofReal 1)
    else if curPower = factorList.length then
      factorList.foldl (fun p f => p.mulReal f.1) (Cplx.ofReal 1)
    else
      (List.range factorList.length).foldl
        (fun sum curFactor => sum + interiorProduct factorList curFactor curPower)
        (Cplx.ofReal 0)

/-- C4 (counterexample): the member function `Complex_C_t::argument()`
(Complex_C.cpp lines 226-252) applied to `0 + 0i` falls through to the
final `else` branch and returns `NAN` (modelled `none`), not `0`. -/
theorem argumentM_zero_nan : Cplx.argumentM ⟨0, 0⟩ = none := by
  norm_num [Cplx.argumentM]

/-- C4 (amended): the free-function `argument` of Complex.cpp returns
`0` on the zero input `0 + 0i` by convention, while the member
`Complex_C_t::argument` of Complex_C.cpp returns `NaN` there. -/
theorem argument_zero_behavior :
    argumentFree ⟨0, 0⟩ = 0 ∧ Cplx.argumentM ⟨0, 0⟩ = none := by
  constructor
  · norm_num [argumentFree]
  · norm_num [Cplx.argumentM]

/-- C2: `crossR3` (Vector.h lines 181-194) evaluated at the failing
input `a = (0,1,0)`, `b = (1,0,0)`: the code returns `(0,0,0)` because
its third component computes `a0*b1 - a1*b1`, while the standard cross
product (which the claim and the function's own documentation state)
gives `(0,0,-1)`. -/
theorem crossR3_bug :
    crossR3 ([0, 1, 0] : List ℝ) [1, 0, 0] = some [0, 0, 0] ∧
      crossR3Std ([0, 1, 0] : List ℝ) [1, 0, 0] = [0, 0, -1] := by
  constructor <;> norm_num [crossR3, crossR3Std]

/-- C8: `CompressFactors` (Poly.cpp lines 136-199) applied to the two
factors `(1, -r1)` and `(1, -r2)` yields the coefficient list
`[r1*r2, -(r1+r2), 1]` (constant term first, ascending powers). -/
theorem compressFactors_two_roots (r1 r2 : Cplx) :
    CompressFactors [(1, -r1), (1, -r2)] = [r1 * r2, -(r1 + r2), 1] := by
  simp only [CompressFactors, interiorProduct, List.length_cons, List.length_nil]
  norm_num [List.range_succ, Cplx.ofReal, Cplx.mulReal]
  exact Cplx.one_def.symm

/-- The concrete scenario-1 matrix `{{5,6,9},{2,1,6},{1,2,3}}`. -/
def m569 : Mat ℝ := Mat.ofLists [[5, 6, 9], [2, 1, 6], [1, 2, 3]]

/-- C1 (counterexample): `Matrix<double>({{5,6,9},{2,1,6},{1,2,3}})
.determinant()` does not return `-3`. -/
theorem m569_det_ne_neg_three : Mat.determinant m569 ≠ some (-3) := by
  norm_num [Mat.determinant, Mat.detFuel, m569, Mat.ofLists,
    Mat.find_zeros_row, Mat.countZeros, Mat.createSubMatrix,
    List.range_succ]

/-- C1 (amended): the determinant of that matrix is `-18` (the value of
the standard cofactor expansion the code implements). -/
theorem m569_det_eq : Mat.determinant m569 = some (-18) := by
  norm_num [Mat.determinant, Mat.detFuel, m569, Mat.ofLists,
    Mat.find_zeros_row, Mat.countZeros, Mat.createSubMatrix,
    List.range_succ]

/-- C10: on a `1×1` matrix, `createSubMatrix` fails for every choice of
row/column arguments, because the `0×0` result matrix fails the
`Matrix(rows, cols)` constructor check (Matrix.h lines 39-50);
consequently `minor` and `cofactor` fail as well. -/
theorem oneByOne_submatrix_fails {α : Type} [DecidableEq α] [Field α]
    (m : Mat α) (hr : m.rows = 1) (hc : m.cols = 1) (row col : ℕ) :
    Mat.createSubMatrix m row col = none ∧ Mat.minor m row col = none ∧
      Mat.cofactor m row col = none := by
  have hsub : Mat.createSubMatrix m row col = none := by
    simp [Mat.createSubMatrix, hr, hc]
  refine ⟨hsub, ?_, ?_⟩ <;> simp [Mat.minor, Mat.cofactor, hsub]

/-- C10 (witness): the concrete `1×1` matrix `[[5]]`. -/
theorem oneByOne_submatrix_fails_witness :
    Mat.createSubMatrix (Mat.ofLists [[(5 : ℝ)]]) 0 0 = none ∧
      Mat.minor (Mat.ofLists [[(5 : ℝ)]]) 0 0 = none ∧
      Mat.cofactor (Mat.ofLists [[(5 : ℝ)]]) 0 0 = none :=
  oneByOne_submatrix_fails (Mat.ofLists [[(5 : ℝ)]]) rfl rfl 0 0

/-- The running-sum loop of `operator%` is the sum of the mapped terms. -/
theorem foldl_add_eq {α : Type} [Field α] (g : ℕ → α) :
    ∀ (l : List ℕ) (init : α),
      l.foldl (fun s i => s + g i) init = init + (l.map g).sum := by
  intro l
  induction l with
  | nil => simp
  | cons x xs ih => intro init; simp [ih, add_assoc]

/-- Summing an indicator-selected family over `range n` picks out the
selected index. -/
theorem sum_map_ite {α : Type} [Field α] (v : ℕ → α) (j : ℕ) :
    ∀ n, j < n →
      ((List.range n).map (fun idx => if idx = j then v idx else 0)).sum = v j := by
  intro n
  induction n with
  | zero => omega
  | succ k ih =>
    intro hj
    rw [List.range_succ]
    rcases Nat.lt_or_ge j k with h | h
    · simp [ih h, if_neg (by omega : ¬k = j)]
    · have hjk : j = k := by omega
      subst hjk
      have : ∀ x ∈ List.range j, (if x = j then v x else 0) = 0 := by
        intro x hx
        simp only [List.mem_range] at hx
        simp [Nat.ne_of_lt hx]
      simp [List.map_congr_left this]

/-- C9: for every square `n×n` matrix `M`, the matrix products
`M % identity(n)` and `identity(n) % M` (Matrix.h lines 228-252,
674-693) succeed and equal `M` under the matrix equality operator. -/
theorem matMul_identity {α : Type} [DecidableEq α] [Field α]
    (m : Mat α) (n : ℕ) (hr : m.rows = n) (hc : m.cols = n) :
    (∃ p, Mat.matMul m (Mat.identity n) = some p ∧ Mat.matEq p m) ∧
    (∃ q, Mat.matMul (Mat.identity n) m = some q ∧ Mat.matEq q m) := by
  constructor
  · have h1 : Mat.matMul m (Mat.identity n) = some ⟨m.rows, n, fun i j =>
        (List.range m.cols).foldl
          (fun sum idx => sum + m.data i idx * (Mat.identity (α := α) n).data idx j) 0⟩ := by
      unfold Mat.matMul
      rw [if_neg (by simp [Mat.identity, hc])]
      rfl
    refine ⟨_, h1, rfl, hc.symm, ?_⟩
    intro i hi j hj
    simp only [Mat.identity, foldl_add_eq, zero_add, mul_ite, mul_one, mul_zero, hc]
    exact sum_map_ite (fun idx => m.data i idx) j n (hc ▸ hj)
  · have h2 : Mat.matMul (Mat.identity n) m = some ⟨n, m.cols, fun i j =>
        (List.range n).foldl
          (fun sum idx => sum + (Mat.identity (α := α) n).data i idx * m.data idx j) 0⟩ := by
      unfold Mat.matMul
      rw [if_neg (by simp [Mat.identity, hr])]
      rfl
    refine ⟨_, h2, hr.symm, rfl, ?_⟩
    intro i hi j hj
    simp only [Mat.identity, foldl_add_eq, zero_add, ite_mul, one_mul, zero_mul]
    have hcomm : ∀ idx : ℕ, (if i = idx then m.data idx j else 0)
        = (if idx = i then m.data idx j else 0) := by
      intro idx; by_cases h : i = idx <;> simp [h, eq_comm]
    simp only [hcomm]
    exact sum_map_ite (fun idx => m.data idx j) i n hi

/-- C9 (witness): the concrete square matrix `[[1,2],[3,4]]` with
`identity(2)`. -/
theorem matMul_identity_witness :
    (∃ p, Mat.matMul (Mat.ofLists [[(1 : ℝ), 2], [3, 4]]) (Mat.identity 2) = some p ∧
        Mat.matEq p (Mat.ofLists [[(1 : ℝ), 2], [3, 4]])) ∧
    (∃ q, Mat.matMul (Mat.identity 2) (Mat.ofLists [[(1 : ℝ), 2], [3, 4]]) = some q ∧
        Mat.matEq q (Mat.ofLists [[(1 : ℝ), 2], [3, 4]])) :=
  matMul_identity (Mat.ofLists [[(1 : ℝ), 2], [3, 4]]) 2 rfl rfl

/-- The best-row fold of `_find_zeros_row` never leaves the row range
once started inside it. -/
theorem find_zeros_fold_lt {α : Type} [DecidableEq α] [Zero α] (m : Mat α) :
    ∀ (l : List ℕ) (init : ℕ × ℕ), (∀ x ∈ l, x < m.rows) → init.2 < m.rows →
      (l.foldl
        (fun best i =>
          let zc := Mat.countZeros m i
          if best.1 < zc then (zc, i) else best) init).2 < m.rows := by
  intro l
  induction l with
  | nil => intro init _ h; simpa
  | cons x xs ih =>
    intro init hmem hinit
    rw [List.foldl_cons]
    apply ih _ (fun y hy => hmem y (List.mem_cons_of_mem _ hy))
    by_cases h : init.1 < Mat.countZeros m x
    · simpa [h] using hmem x (List.mem_cons_self x xs)
    · simpa [h]

/-- Source: `_find_zeros_row` returns an in-range row for any nonempty matrix. -/
theorem find_zeros_row_lt {α : Type} [DecidableEq α] [Zero α]
    (m : Mat α) (h : 1 ≤ m.rows) : Mat.find_zeros_row m < m.rows := by
  unfold Mat.find_zeros_row
  exact find_zeros_fold_lt m _ _ (fun x hx => List.mem_range.mp hx) h

/-- Source: `createSubMatrix` succeeds on any matrix with both dimensions at
least 2 and in-range arguments. -/
theorem createSubMatrix_some {α : Type} (m : Mat α) (r c : ℕ)
    (h2r : 2 ≤ m.rows) (h2c : 2 ≤ m.cols) (hr : r < m.rows) (hc : c < m.cols) :
    ∃ sub, Mat.createSubMatrix m r c = some sub ∧
      sub.rows = m.rows - 1 ∧ sub.cols = m.cols - 1 := by
  unfold Mat.createSubMatrix
  rw [if_neg (by omega), if_neg (by omega)]
  exact ⟨_, rfl, rfl, rfl⟩

/-- An option-valued fold stays defined when every step preserves
definedness. -/
theorem foldl_isSome {α : Type} (step : Option α → ℕ → Option α) :
    ∀ (l : List ℕ), (∀ s j, j ∈ l → (step (some s) j).isSome = true) →
      ∀ acc : Option α, acc.isSome = true → (l.foldl step acc).isSome = true := by
  intro l
  induction l with
  | nil => intro _ acc h; simpa
  | cons x xs ih =>
    intro hstep acc hacc
    rw [List.foldl_cons]
    obtain ⟨s, rfl⟩ := Option.isSome_iff_exists.mp hacc
    exact ih (fun s j hj => hstep s j (List.mem_cons_of_mem _ hj)) _
      (hstep s x (List.mem_cons_self x xs))

/-- Source: `detFuel` is defined on every square matrix whose row count is at
most the available fuel: the recursion shrinks the matrix strictly
faster than the fuel. -/
theorem detFuel_isSome {α : Type} [DecidableEq α] [Field α] :
    ∀ (fuel : ℕ) (m : Mat α), m.rows = m.cols → 1 ≤ m.rows → m.rows ≤ fuel →
      (Mat.detFuel fuel m).isSome = true := by
  intro fuel
  induction fuel with
  | zero => intro m _ h1 h2; omega
  | succ fuel ih =>
    intro m hsq h1 hle
    rw [Mat.detFuel]
    rw [if_neg (by omega)]
    by_cases h2 : m.cols = 2
    · simp [h2]
    rw [if_neg h2]
    by_cases h3 : m.cols = 1
    · simp [h3]
    rw [if_neg h3]
    have hcols : 3 ≤ m.cols := by omega
    have hwr : Mat.find_zeros_row m < m.rows := find_zeros_row_lt m h1
    apply foldl_isSome
    · intro s j hj
      rw [Option.some_bind]
      by_cases hnz : m.data (Mat.find_zeros_row m) j ≠ 0
      · rw [if_pos hnz]
        obtain ⟨sub, hsub, hsr, hsc⟩ := createSubMatrix_some m (Mat.find_zeros_row m) j
          (by omega) (by omega) hwr (List.mem_range.mp hj)
        rw [hsub, Option.some_bind]
        have := ih sub (by omega) (by omega) (by omega)
        obtain ⟨d, hd⟩ := Option.isSome_iff_exists.mp this
        simp [hd]
      · rw [if_neg hnz]; rfl
    · rfl

/-- Source: `determinant()` never throws on a square matrix of positive size. -/
theorem determinant_isSome {α : Type} [DecidableEq α] [Field α]
    (m : Mat α) (hsq : m.rows = m.cols) (h1 : 1 ≤ m.rows) :
    (Mat.determinant m).isSome = true :=
  detFuel_isSome m.rows m hsq h1 le_rfl

/-- Source: `adjoint()` never throws on a square matrix of size at least 2:
every cofactor's sub-matrix is a square matrix of positive size. -/
theorem adjoint_isSome {α : Type} [DecidableEq α] [Field α]
    (m : Mat α) (hsq : m.rows = m.cols) (h2 : 2 ≤ m.rows) :
    (Mat.adjoint m).isSome = true := by
  unfold Mat.adjoint
  rw [if_pos]
  · rfl
  · intro i hi j hj
    obtain ⟨sub, hsub, hsr, hsc⟩ := createSubMatrix_some m i j (by omega) (by omega) hi hj
    unfold Mat.cofactor Mat.minor
    rw [hsub, Option.some_bind]
    have := determinant_isSome sub (by omega) (by omega)
    obtain ⟨d, hd⟩ := Option.isSome_iff_exists.mp this
    simp [hd]

/-- C5 (counterexample): the `1×1` matrix `[[5]]` has determinant `5`,
which is nonzero, yet `inverse()` fails: `adjoint()` computes
`cofactor(0,0)`, whose `createSubMatrix` call constructs a `0×0` matrix
and throws. -/
theorem inverse_oneByOne_counterexample :
    Mat.determinant (Mat.ofLists [[(5 : ℝ)]]) = some 5 ∧
      (5 : ℝ) ≠ 0 ∧ Mat.inverse (Mat.ofLists [[(5 : ℝ)]]) = none := by
  have hdet : Mat.determinant (Mat.ofLists [[(5 : ℝ)]]) = some 5 := by
    norm_num [Mat.determinant, Mat.detFuel, Mat.ofLists]
  refine ⟨hdet, by norm_num, ?_⟩
  have hcof : Mat.cofactor (Mat.ofLists [[(5 : ℝ)]]) 0 0 = none := by
    simp [Mat.cofactor, Mat.minor, Mat.createSubMatrix, Mat.ofLists]
  have hadj : Mat.adjoint (Mat.ofLists [[(5 : ℝ)]]) = none := by
    unfold Mat.adjoint
    rw [if_neg]
    intro hall
    have := hall 0 (by norm_num [Mat.ofLists]) 0 (by norm_num [Mat.ofLists])
    rw [hcof] at this
    simp at this
  simp [Mat.inverse, hdet, hadj]

/-- C5 (amended): for every square matrix of size at least 2,
`inverse()` (Matrix.h lines 601-610) fails exactly when `determinant()`
is zero, and returns `adjoint() / determinant()` otherwise.  (On `1×1`
matrices `inverse()` also fails when the determinant is nonzero,
because `adjoint()` throws.) -/
theorem inverse_fails_iff_det_zero {α : Type} [DecidableEq α] [Field α]
    (m : Mat α) (hsq : m.rows = m.cols) (h2 : 2 ≤ m.rows) :
    (Mat.inverse m = none ↔ Mat.determinant m = some 0) ∧
    (∀ d, Mat.determinant m = some d → d ≠ 0 →
      ∃ a, Mat.adjoint m = some a ∧ Mat.inverse m = some (Mat.divScalar a d)) := by
  obtain ⟨d, hd⟩ := Option.isSome_iff_exists.mp
    (determinant_isSome m hsq (by omega))
  obtain ⟨a, ha⟩ := Option.isSome_iff_exists.mp (adjoint_isSome m hsq h2)
  constructor
  · constructor
    · intro hnone
      by_contra hne
      have hdz : d ≠ 0 := fun h => hne (h ▸ hd)
      rw [Mat.inverse, hd, Option.some_bind, if_neg hdz, ha] at hnone
      simp at hnone
    · intro hzero
      rw [hd] at hzero
      have hd0 : d = 0 := Option.some.inj hzero
      subst hd0
      rw [Mat.inverse, hd, Option.some_bind, if_pos rfl]
  · intro d' hd' hdz
    rw [hd] at hd'
    have hdd : d = d' := Option.some.inj hd'
    subst hdd
    exact ⟨a, ha, by rw [Mat.inverse, hd, Option.some_bind, if_neg hdz, ha, Option.map_some']⟩

/-- C5 (witness): the amended statement at the invertible matrix
`[[1,2],[3,4]]`. -/
theorem inverse_fails_iff_det_zero_witness :
    (Mat.inverse (Mat.ofLists [[(1 : ℝ), 2], [3, 4]]) = none ↔
        Mat.determinant (Mat.ofLists [[(1 : ℝ), 2], [3, 4]]) = some 0) ∧
    (∀ d, Mat.determinant (Mat.ofLists [[(1 : ℝ), 2], [3, 4]]) = some d → d ≠ 0 →
      ∃ a, Mat.adjoint (Mat.ofLists [[(1 : ℝ), 2], [3, 4]]) = some a ∧
        Mat.inverse (Mat.ofLists [[(1 : ℝ), 2], [3, 4]]) =
          some (Mat.divScalar a d)) :=
  inverse_fails_iff_det_zero (Mat.ofLists [[(1 : ℝ), 2], [3, 4]]) rfl (by norm_num [Mat.ofLists])

/-- Source: `dkMaxRank` is the ordinary `length - 1` for nonempty lists that
fit in `size_t`. -/
theorem dkMaxRank_eq (coeffs : List Cplx) (h1 : 1 ≤ coeffs.length)
    (h2 : coeffs.length < 2 ^ 64) : dkMaxRank coeffs = coeffs.length - 1 := by
  unfold dkMaxRank
  rw [show coeffs.length + (2 ^ 64 - 1) = (coeffs.length - 1) + 2 ^ 64 by omega,
    Nat.add_mod_right, Nat.mod_eq_of_lt (by omega)]

/-- Source: `getD` of a mapped `range` list picks out the mapped index. -/
theorem getD_range_map {β : Type} (f : ℕ → β) (n i : ℕ) (d : β) (hi : i < n) :
    ((List.range n).map f).getD i d = f i := by
  rw [List.getD_eq_getElem _ _ (by simpa using hi)]
  simp

/-- The initial-guess formula exactly as claim C3 states it: radius
`(|coeff[0]| / |coeff[rank]|)^(1/rank)`, angle
`i·(2π/rank) + π/(2·rank)`, with components of magnitude below `1e-9`
snapped to `0`. -/
noncomputable def claimedGuess (coeffs : List Cplx) (i : ℕ) : Cplx :=
  let rank := coeffs.length - 1
  let r := ((coeffs.getD 0 0).absolute / (coeffs.getD rank 0).absolute) ^ (1 / (rank : ℝ))
  let θ := (i : ℝ) * (2 * π / (rank : ℝ)) + π / (2 * (rank : ℝ))
  let c : Cplx := ⟨r * Real.cos θ, r * Real.sin θ⟩
  ⟨if |c.m_real| < 1e-9 then 0 else c.m_real,
   if |c.m_imagine| < 1e-9 then 0 else c.m_imagine⟩

/-- The guess formula amended to what the code computes: the radius
numerator is the *first nonzero* coefficient's magnitude rather than
`|coeff[0]|`, and the snap threshold is `SMALLEST_ALLOWED_START_VAL =
1e-12` rather than `1e-9`. -/
noncomputable def amendedGuess (coeffs : List Cplx) (i : ℕ) : Cplx :=
  let rank := coeffs.length - 1
  let r := ((firstNonzeroCoeff coeffs).absolute / (coeffs.getD rank 0).absolute)
    ^ (1 / (rank : ℝ))
  let θ := (i : ℝ) * (2 * π / (rank : ℝ)) + π / (2 * (rank : ℝ))
  snapSmall ⟨r * Real.cos θ, r * Real.sin θ⟩

/-- C3 (amended): for every coefficient list of rank at least 2 (within
`size_t` range), the `i`-th initial root guess of `FactorizePoly` is
the rectangular form of the polar point with radius
`(|first nonzero coeff| / |coeff[rank]|)^(1/rank)` and angle
`i·(2π/rank) + π/(2·rank)`, with any component of magnitude below
`1e-12` replaced by exactly `0`. -/
theorem initialGuesses_formula (coeffs : List Cplx) (i : ℕ)
    (h3 : 3 ≤ coeffs.length) (hlen : coeffs.length < 2 ^ 64)
    (hi : i < coeffs.length - 1) :
    (initialGuesses coeffs).getD i 0 = amendedGuess coeffs i := by
  have hrank : dkMaxRank coeffs = coeffs.length - 1 := dkMaxRank_eq coeffs (by omega) hlen
  simp only [initialGuesses, amendedGuess, dkRadius, polarToCart, snapSmall, hrank]
  rw [getD_range_map _ _ _ _ hi]

/-- The spec's own scenario-3 polynomial `4x⁵ - 16x`, whose constant
coefficient is zero. -/
noncomputable def coeffs0 : List Cplx :=
  [⟨0, 0⟩, ⟨-16, 0⟩, ⟨0, 0⟩, ⟨0, 0⟩, ⟨0, 0⟩, ⟨4, 0⟩]

/-- C3 (counterexample): on `4x⁵ - 16x` the claimed radius
`(|coeff[0]| / |coeff[rank]|)^(1/rank)` is `0` (zero constant
coefficient), so the claimed guess 0 is the origin; the code instead
uses the first *nonzero* coefficient, giving radius `4^(1/5) ≥ 1` and a
guess with real part at least `cos(π/10) ≥ 1/2`. -/
theorem initialGuess_ne_claimed :
    (initialGuesses coeffs0).getD 0 0 ≠ claimedGuess coeffs0 0 := by
  have hrank : dkMaxRank coeffs0 = 5 := by
    rw [dkMaxRank_eq coeffs0 (by norm_num [coeffs0]) (by norm_num [coeffs0])]
    norm_num [coeffs0]
  have habs16 : Cplx.absolute ⟨-16, 0⟩ = 16 := by
    rw [Cplx.absolute]
    rw [show ((-16 : ℝ) ^ 2 + (0 : ℝ) ^ 2) = 16 ^ 2 by norm_num,
      Real.sqrt_sq (by norm_num : (0 : ℝ) ≤ 16)]
  have habs4 : Cplx.absolute ⟨4, 0⟩ = 4 := by
    rw [Cplx.absolute]
    rw [show ((4 : ℝ) ^ 2 + (0 : ℝ) ^ 2) = 4 ^ 2 by norm_num,
      Real.sqrt_sq (by norm_num : (0 : ℝ) ≤ 4)]
  have hfirst : firstNonzeroCoeff coeffs0 = ⟨-16, 0⟩ := by
    unfold firstNonzeroCoeff coeffs0
    rw [List.find?_cons_of_neg _ (by simp [Cplx.ext_iff]),
      List.find?_cons_of_pos _ (by simp [Cplx.ext_iff])]
    rfl
  have hrad : dkRadius coeffs0 = (4 : ℝ) ^ ((5 : ℝ)⁻¹) := by
    unfold dkRadius
    rw [hrank, hfirst, habs16]
    norm_num [coeffs0, habs4]
  have hrad1 : (1 : ℝ) ≤ dkRadius coeffs0 := by
    rw [hrad]
    calc (1 : ℝ) = (1 : ℝ) ^ ((5 : ℝ)⁻¹) := (Real.one_rpow _).symm
    _ ≤ (4 : ℝ) ^ ((5 : ℝ)⁻¹) :=
      Real.rpow_le_rpow (by norm_num) (by norm_num) (by norm_num)
  have hcos : (1 / 2 : ℝ) ≤ Real.cos (π / 10) := by
    rw [show (1 / 2 : ℝ) = Real.cos (π / 3) from (Real.cos_pi_div_three).symm]
    apply Real.cos_le_cos_of_nonneg_of_le_pi
    · positivity
    · linarith [Real.pi_pos]
    · linarith [Real.pi_pos]
  have hguess : (initialGuesses coeffs0).getD 0 0 =
      snapSmall (polarToCart (dkRadius coeffs0, (0 : ℝ) * (2 * π / 5) + π / (2 * 5))) := by
    unfold initialGuesses
    rw [hrank, getD_range_map _ _ _ _ (by norm_num)]
    norm_num
  have hangle : (0 : ℝ) * (2 * π / 5) + π / (2 * 5) = π / 10 := by ring
  have hrealpos : (1 / 2 : ℝ) ≤ dkRadius coeffs0 * Real.cos (π / 10) := by
    calc (1 / 2 : ℝ) = 1 * (1 / 2) := by ring
    _ ≤ dkRadius coeffs0 * Real.cos (π / 10) := by
      apply mul_le_mul hrad1 hcos (by norm_num)
      linarith
  have hlhs : ((initialGuesses coeffs0).getD 0 0).m_real =
      dkRadius coeffs0 * Real.cos (π / 10) := by
    rw [hguess, hangle]
    unfold snapSmall polarToCart
    simp only
    rw [if_neg]
    rw [abs_of_nonneg (by linarith)]
    unfold SMALLEST_ALLOWED_START_VAL
    intro h
    nlinarith
  have hrhs : claimedGuess coeffs0 0 = ⟨0, 0⟩ := by
    unfold claimedGuess
    have hlen : coeffs0.length - 1 = 5 := by norm_num [coeffs0]
    have h0 : (coeffs0.getD 0 0) = ⟨0, 0⟩ := by norm_num [coeffs0]
    have habs0 : Cplx.absolute ⟨0, 0⟩ = 0 := by
      rw [Cplx.absolute]; norm_num
    simp only [hlen, h0, habs0]
    rw [zero_div, Real.zero_rpow (by norm_num)]
    norm_num
  intro h
  rw [hrhs] at h
  have := congrArg Cplx.m_real h
  rw [hlhs] at this
  simp only at this
  nlinarith

/-- C3 (witness): the amended guess formula instantiated at
`4x⁵ - 16x`, guess index 0. -/
theorem initialGuesses_formula_witness :
    (initialGuesses coeffs0).getD 0 0 = amendedGuess coeffs0 0 :=
  initialGuesses_formula coeffs0 0 (by norm_num [coeffs0])
    (by norm_num [coeffs0]) (by norm_num [coeffs0])

/-- One Durand-Kerner step preserves the number of root estimates. -/
theorem dkStep_length (coeffs cur : List Cplx) :
    (dkStep coeffs cur).length = cur.length := by
  simp [dkStep]

/-- The Durand-Kerner loop preserves the number of root estimates. -/
theorem dkLoop_fst_length (coeffs : List Cplx) :
    ∀ (n iter : ℕ) (cur : List Cplx) (b : Bool), MAX_DK_ITERATIONS - iter ≤ n →
      ((dkLoop coeffs cur iter b).1).length = cur.length := by
  intro n
  induction n with
  | zero =>
    intro iter cur b hn
    rw [dkLoop, dif_neg (by omega)]
  | succ n ih =>
    intro iter cur b hn
    rw [dkLoop]
    by_cases hcond : iter < MAX_DK_ITERATIONS ∧ b = false
    · rw [dif_pos hcond]
      rw [ih (iter + 1) _ _ (by omega), dkStep_length]
    · rw [dif_neg hcond]

/-- The iteration counter never exceeds the ceiling, and a final count
strictly below the ceiling can only arise from `all_converged = true`. -/
theorem dkLoop_count (coeffs : List Cplx) :
    ∀ (n iter : ℕ) (cur : List Cplx) (b : Bool),
      MAX_DK_ITERATIONS - iter ≤ n → iter ≤ MAX_DK_ITERATIONS →
      (dkLoop coeffs cur iter b).2.1 ≤ MAX_DK_ITERATIONS ∧
      ((dkLoop coeffs cur iter b).2.1 < MAX_DK_ITERATIONS →
        (dkLoop coeffs cur iter b).2.2 = true) := by
  intro n
  induction n with
  | zero =>
    intro iter cur b hn hle
    rw [dkLoop, dif_neg (by omega)]
    exact ⟨hle, fun h => absurd (show iter < MAX_DK_ITERATIONS from h) (by omega)⟩
  | succ n ih =>
    intro iter cur b hn hle
    rw [dkLoop]
    by_cases hcond : iter < MAX_DK_ITERATIONS ∧ b = false
    · rw [dif_pos hcond]
      exact ih (iter + 1) _ _ (by omega) (by omega)
    · rw [dif_neg hcond]
      refine ⟨hle, fun h => ?_⟩
      rcases Bool.eq_false_or_eq_true b with hb | hb
      · exact hb
      · exact absurd ⟨show iter < MAX_DK_ITERATIONS from h, hb⟩ hcond

/-- When at least one iteration runs on a nonempty estimate list, the
loop's final estimates are one `dkStep` past some previous estimate
list, and the final `all_converged` flag is exactly that step's
convergence test. -/
theorem dkLoop_last_step (coeffs : List Cplx) :
    ∀ (n iter : ℕ) (cur : List Cplx),
      MAX_DK_ITERATIONS - iter ≤ n → iter < MAX_DK_ITERATIONS → cur.length ≠ 0 →
      ∃ prev, (dkLoop coeffs cur iter false).1 = dkStep coeffs prev ∧
        (dkLoop coeffs cur iter false).2.2 = convTest prev (dkStep coeffs prev) := by
  intro n
  induction n with
  | zero => intro iter cur hn hlt _; omega
  | succ n ih =>
    intro iter cur hn hlt hne
    rw [dkLoop, dif_pos ⟨hlt, rfl⟩]
    simp only [if_neg hne]
    by_cases hcond : iter + 1 < MAX_DK_ITERATIONS ∧ convTest cur (dkStep coeffs cur) = false
    · rw [hcond.2]
      exact ih (iter + 1) (dkStep coeffs cur) (by omega) hcond.1
        (by rw [dkStep_length]; exact hne)
    · rw [dkLoop, dif_neg hcond]
      exact ⟨cur, rfl, rfl⟩

/-- C7: for every input of rank at least 2, the Durand-Kerner loop of
`FactorizePoly` terminates: (1) the iteration count never exceeds
`MAX_DK_ITERATIONS = 1048576 = 2^20`; (2) if it stopped before the
ceiling, the final `all_converged` flag is set; (3) that flag is
exactly the convergence test between the last two estimate lists;
(4) the test holds exactly when *every* root's magnitude changed by
less than `MIN_DIFF_CONV_TEST = 1e-9`; and (5) while any root fails
the test and the ceiling is not reached, the loop runs another
iteration. -/
theorem dk_termination (coeffs : List Cplx) (hrank : 3 ≤ coeffs.length)
    (hlen : coeffs.length < 2 ^ 64) :
    (dkLoop coeffs (initialGuesses coeffs) 0 false).2.1 ≤ MAX_DK_ITERATIONS ∧
    ((dkLoop coeffs (initialGuesses coeffs) 0 false).2.1 < MAX_DK_ITERATIONS →
      (dkLoop coeffs (initialGuesses coeffs) 0 false).2.2 = true) ∧
    (∃ prev, (dkLoop coeffs (initialGuesses coeffs) 0 false).1 = dkStep coeffs prev ∧
      (dkLoop coeffs (initialGuesses coeffs) 0 false).2.2 =
        convTest prev (dkStep coeffs prev)) ∧
    (∀ a b : List Cplx, convTest a b = true ↔
      ∀ i < a.length,
        |(a.getD i 0).absolute - (b.getD i 0).absolute| < MIN_DIFF_CONV_TEST) ∧
    (∀ (cur : List Cplx) (iter : ℕ), cur.length ≠ 0 → iter < MAX_DK_ITERATIONS →
      convTest cur (dkStep coeffs cur) = false →
      dkLoop coeffs cur iter false =
        dkLoop coeffs (dkStep coeffs cur) (iter + 1) false) := by
  have hne : (initialGuesses coeffs).length ≠ 0 := by
    unfold initialGuesses
    rw [List.length_map, List.length_range, dkMaxRank_eq coeffs (by omega) hlen]
    omega
  have hcnt := dkLoop_count coeffs MAX_DK_ITERATIONS 0 (initialGuesses coeffs) false
    (by omega) (by omega)
  refine ⟨hcnt.1, hcnt.2, ?_, ?_, ?_⟩
  · exact dkLoop_last_step coeffs MAX_DK_ITERATIONS 0 (initialGuesses coeffs)
      (by omega) (by norm_num [MAX_DK_ITERATIONS]) hne
  · intro a b
    simp [convTest, List.all_eq_true, List.mem_range]
  · intro cur iter hne' hiter hconv
    conv_lhs => rw [dkLoop, dif_pos ⟨hiter, rfl⟩]
    simp only [if_neg hne', hconv]

/-- C7 (witness): the loop-termination properties instantiated at the
rank-5 polynomial `4x⁵ - 16x`. -/
theorem dk_termination_witness :
    (dkLoop coeffs0 (initialGuesses coeffs0) 0 false).2.1 ≤ MAX_DK_ITERATIONS ∧
    ((dkLoop coeffs0 (initialGuesses coeffs0) 0 false).2.1 < MAX_DK_ITERATIONS →
      (dkLoop coeffs0 (initialGuesses coeffs0) 0 false).2.2 = true) ∧
    (∃ prev, (dkLoop coeffs0 (initialGuesses coeffs0) 0 false).1 = dkStep coeffs0 prev ∧
      (dkLoop coeffs0 (initialGuesses coeffs0) 0 false).2.2 =
        convTest prev (dkStep coeffs0 prev)) ∧
    (∀ a b : List Cplx, convTest a b = true ↔
      ∀ i < a.length,
        |(a.getD i 0).absolute - (b.getD i 0).absolute| < MIN_DIFF_CONV_TEST) ∧
    (∀ (cur : List Cplx) (iter : ℕ), cur.length ≠ 0 → iter < MAX_DK_ITERATIONS →
      convTest cur (dkStep coeffs0 cur) = false →
      dkLoop coeffs0 cur iter false =
        dkLoop coeffs0 (dkStep coeffs0 cur) (iter + 1) false) :=
  dk_termination coeffs0 (by norm_num [coeffs0]) (by norm_num [coeffs0])

/-- C6 (counterexample): on the empty coefficient list the `size_t`
expression `compressedPoly.size() - 1` wraps to `2^64 - 1`, so the
`maxRank < 2` guard does not fire and no invalid-argument error is
raised; instead `compressedPoly.at(maxRank)` in the radius computation
throws `std::out_of_range`, so the call is not error-free either. -/
theorem factorizePoly_empty :
    FactorizePoly [] = Except.error PolyErr.outOfRange ∧
      PolyErr.outOfRange ≠ PolyErr.invalidArgument := by
  constructor
  · have h : dkMaxRank ([] : List Cplx) = 2 ^ 64 - 1 := by
      unfold dkMaxRank
      norm_num
    simp only [FactorizePoly, h]
    rw [if_neg (by norm_num), if_pos (by norm_num)]
  · simp

/-- Source: `getD` through the final `(1, -root)` wrapping of `FactorizePoly`. -/
theorem getD_map_negPair (l : List Cplx) :
    ∀ i : ℕ, (l.map (fun v => ((1 : ℝ), -v))).getD i ((0 : ℝ), (0 : Cplx))
      = if i < l.length then (1, -(l.getD i 0)) else ((0 : ℝ), (0 : Cplx)) := by
  induction l with
  | nil => intro i; simp
  | cons x xs ih =>
    intro i
    cases i with
    | zero => simp
    | succ k => simpa using ih k

/-- C6 (amended): for every nonempty coefficient list (of `size_t`
length), `FactorizePoly` raises invalid-argument exactly when the rank
`length - 1` is below 2 — and that is its only error; for rank at least
2 it raises no error and returns exactly `rank` factors, each of the
form `(1, -finalRoot_i)` with `finalRoot_i` the `i`-th estimate left by
the Durand-Kerner loop, converged or not.  (The empty list instead
raises out-of-range.) -/
theorem factorizePoly_errors (coeffs : List Cplx) (h1 : 1 ≤ coeffs.length)
    (h2 : coeffs.length < 2 ^ 64) :
    (FactorizePoly coeffs = .error .invalidArgument ↔ coeffs.length - 1 < 2) ∧
    ((∃ e, FactorizePoly coeffs = .error e) ↔ coeffs.length - 1 < 2) ∧
    (2 ≤ coeffs.length - 1 →
      ∃ l, FactorizePoly coeffs = .ok l ∧ l.length = coeffs.length - 1 ∧
        ∀ i < coeffs.length - 1,
          l.getD i (0, 0) =
            (1, -((dkLoop coeffs (initialGuesses coeffs) 0 false).1.getD i 0))) := by
  have hrank := dkMaxRank_eq coeffs h1 h2
  by_cases hlow : coeffs.length - 1 < 2
  · have hfp : FactorizePoly coeffs = .error .invalidArgument := by
      simp only [FactorizePoly, hrank, if_pos hlow]
    rw [hfp]
    exact ⟨⟨fun _ => hlow, fun _ => rfl⟩,
      ⟨fun _ => hlow, fun _ => ⟨PolyErr.invalidArgument, rfl⟩⟩,
      fun h => absurd h (by omega)⟩
  · simp only [FactorizePoly, hrank, if_neg hlow]
    rw [if_neg (by omega : ¬coeffs.length ≤ coeffs.length - 1)]
    have hlenr : ((dkLoop coeffs (initialGuesses coeffs) 0 false).1).length =
        coeffs.length - 1 := by
      rw [dkLoop_fst_length coeffs MAX_DK_ITERATIONS 0 _ false (by omega)]
      unfold initialGuesses
      rw [List.length_map, List.length_range, hrank]
    refine ⟨?_, ?_, fun _ => ⟨_, rfl, ?_, ?_⟩⟩
    · constructor
      · intro h; exact absurd h (by simp)
      · intro h; omega
    · constructor
      · rintro ⟨e, he⟩; exact absurd he (by simp)
      · intro h; omega
    · rw [List.length_map, hlenr]
    · intro i hi
      rw [getD_map_negPair _ i, if_pos (by rw [hlenr]; omega)]

/-- C6 (witness): the amended error characterization at the rank-5
polynomial `4x⁵ - 16x`. -/
theorem factorizePoly_errors_witness :
    (FactorizePoly coeffs0 = .error .invalidArgument ↔ coeffs0.length - 1 < 2) ∧
    ((∃ e, FactorizePoly coeffs0 = .error e) ↔ coeffs0.length - 1 < 2) ∧
    (2 ≤ coeffs0.length - 1 →
      ∃ l, FactorizePoly coeffs0 = .ok l ∧ l.length = coeffs0.length - 1 ∧
        ∀ i < coeffs0.length - 1,
          l.getD i (0, 0) =
            (1, -((dkLoop coeffs0 (initialGuesses coeffs0) 0 false).1.getD i 0))) :=
  factorizePoly_errors coeffs0 (by norm_num [coeffs0]) (by norm_num [coeffs0])
